import Mathlib

/-
Shallow embedding of the excited-state model and pipeline of the td
repository (src/td.py, src/td/parser/turbomole.py, src/td/parser/ricc2.py,
src/td/run.py).  Machine floats are modelled as exact rationals in the
parsing and post-processing pipeline (which only multiplies, divides and
compares); the UV-spectrum and resonance-Raman computations, which use the
exponential function and complex arithmetic, are modelled over the reals.
-/

/-- One molecular-orbital transition of an excited state
(class MOTransition, src/td.py lines 160 to 172).  The contribution is an
optional value, none standing for the Python None default. -/
structure MOTransition where
  start_mo : String
  start_spin : String
  to_or_from : String
  final_mo : String
  final_spin : String
  ci_coeff : ℚ
  contrib : Option ℚ
  start_irrep : String
  final_irrep : String
  deriving DecidableEq, Inhabited

/-- One excited state (class ExcitedState, src/td.py lines 44 to 55).
The spin-squared column is a float or a sentinel string in the source; it
is modelled as an Option, none standing for the sentinel.  The
resonance-Raman weight is computed by the standalone calc_rr_weight
below, which mirrors the method of the same name. -/
structure ExcitedState where
  id : ℤ
  spin : String
  spat : String
  dE : ℚ
  l : ℚ
  f : ℚ
  s2 : Option ℚ
  mo_transitions : List MOTransition
  deriving DecidableEq, Inhabited

/-- ExcitedState.add_mo_transition (src/td.py lines 69 to 80): builds the
transition record, defaulting an empty spin token to alpha. -/
def mk_mo_transition (start_mo to_or_from final_mo : String) (ci_coeff : ℚ)
    (start_spin final_spin : String) (contrib : Option ℚ)
    (start_irrep final_irrep : String) : MOTransition :=
  { start_mo := start_mo
    to_or_from := to_or_from
    final_mo := final_mo
    ci_coeff := ci_coeff
    contrib := contrib
    start_spin := if start_spin = "" then "alpha" else start_spin
    final_spin := if final_spin = "" then "alpha" else final_spin
    start_irrep := start_irrep
    final_irrep := final_irrep }

/-- ExcitedState.is_singlet (src/td.py lines 95 to 96): the source
compares the stored token against the lowercased literal (the Python
expression lowercasing the word Singlet evaluates to the lowercase string
written here); the stored token itself is never lowercased. -/
def ExcitedState.is_singlet (es : ExcitedState) : Bool :=
  es.spin == "singlet"

/-- Body of ExcitedState.calculate_contributions for one transition
(src/td.py lines 98 to 105): a transition whose contribution is already
set is left alone, otherwise the squared coefficient is stored, doubled
for a singlet. -/
def calcContrib (singlet : Bool) (t : MOTransition) : MOTransition :=
  match t.contrib with
  | some _ => t
  | none => { t with contrib := some (t.ci_coeff ^ 2 * (if singlet then 2 else 1)) }

/-- ExcitedState.calculate_contributions (src/td.py lines 98 to 105). -/
def ExcitedState.calculate_contributions (es : ExcitedState) : ExcitedState :=
  { es with mo_transitions := es.mo_transitions.map (calcContrib es.is_singlet) }

/-- Index of the first list element satisfying p (the Python list
comprehension of correct_backexcitations followed by taking element 0). -/
def firstIdx (p : MOTransition → Bool) : List MOTransition → Option ℕ
  | [] => none
  | t :: ts => if p t then some 0 else (firstIdx p ts).map (fun j => j + 1)

/-- The matching test of correct_backexcitations (src/td.py lines 113 to
118): a transition matches a back-transition when both stored orbital
fields agree; the direction is not inspected. -/
def matchesMO (bt t : MOTransition) : Bool :=
  t.start_mo == bt.start_mo && t.final_mo == bt.final_mo

/-- Indices of the back-transitions (src/td.py lines 110 to 111). -/
def backIndices (ts : List MOTransition) : List ℕ :=
  (List.range ts.length).filter (fun i => (ts[i]?).any (fun t => t.to_or_from == "<-"))

/-- One iteration of the correct_backexcitations loop (src/td.py lines
112 to 120); none models the uncaught Python exception (indexing an empty
match list, or arithmetic on an unset contribution). -/
def corrStep (ts : List MOTransition) (i : ℕ) : Option (List MOTransition) :=
  match ts[i]? with
  | none => none
  | some bt =>
    match firstIdx (matchesMO bt) ts with
    | none => none
    | some j =>
      match ts[j]? with
      | none => none
      | some tj =>
        match tj.contrib, bt.contrib with
        | some a, some b => some (ts.set j { tj with contrib := some (a - b) })
        | _, _ => none

/-- The correct_backexcitations loop over the collected back-transition
indices. -/
def corrLoop : List MOTransition → List ℕ → Option (List MOTransition)
  | ts, [] => some ts
  | ts, i :: rest =>
    match corrStep ts i with
    | none => none
    | some ts2 => corrLoop ts2 rest

/-- ExcitedState.correct_backexcitations (src/td.py lines 107 to 120). -/
def ExcitedState.correct_backexcitations (es : ExcitedState) : Option ExcitedState :=
  (corrLoop es.mo_transitions (backIndices es.mo_transitions)).map
    (fun ts => { es with mo_transitions := ts })

/-- The transitions actually printed by ExcitedState.print_mo_transitions
(src/td.py lines 122 to 128): back-transitions are skipped. -/
def ExcitedState.printed_transitions (es : ExcitedState) : List MOTransition :=
  es.mo_transitions.filter (fun t => !(t.to_or_from == "<-"))

/-- Deletion test of ExcitedState.suppress_low_ci_coeffs (src/td.py lines
135 to 148).  A contribution that is unset or zero is falsy in the
source, so such transitions are judged by their raw coefficient; a set
nonzero contribution is compared against twice the squared threshold,
whatever the multiplicity. -/
def suppressDelete (thresh : ℚ) (t : MOTransition) : Bool :=
  match t.contrib with
  | some c =>
    if c = 0 then decide (|t.ci_coeff| ≤ thresh) else decide (c ≤ thresh ^ 2 * 2)
  | none => decide (|t.ci_coeff| ≤ thresh)

/-- ExcitedState.suppress_low_ci_coeffs (src/td.py lines 135 to 148). -/
def ExcitedState.suppress_low_ci_coeffs (es : ExcitedState) (thresh : ℚ) : ExcitedState :=
  { es with mo_transitions := es.mo_transitions.filter (fun t => !suppressDelete thresh t) }

/-- Sum of the contributions of the forward transitions of a state (an
unset contribution counts as zero); the quantity of claim C4. -/
def forwardContribSum (es : ExcitedState) : ℚ :=
  ((es.mo_transitions.filter (fun t => t.to_or_from == "->")).map
    (fun t => t.contrib.getD 0)).sum

/-- Comparison relation of the default energy sort (src/td.py lines 577
to 579). -/
def byEnergy (a b : ExcitedState) : Prop := a.dE ≤ b.dE

instance : DecidableRel byEnergy := fun a b => inferInstanceAs (Decidable (a.dE ≤ b.dE))

instance : IsTotal ExcitedState byEnergy := ⟨fun a b => le_total a.dE b.dE⟩

instance : IsTrans ExcitedState byEnergy := ⟨fun _ _ _ h1 h2 => le_trans h1 h2⟩

/-- Comparison relation of the oscillator-strength sort (src/td.py lines
574 to 576): ascending in the negated strength. -/
def byStrength (a b : ExcitedState) : Prop := -a.f ≤ -b.f

instance : DecidableRel byStrength := fun a b => inferInstanceAs (Decidable (-a.f ≤ -b.f))

/-- Relabelling of the states from 1 to N after the energy sort
(src/td.py lines 580 to 582). -/
def renumber : ℤ → List ExcitedState → List ExcitedState
  | _, [] => []
  | k, es :: rest => { es with id := k } :: renumber (k + 1) rest

/-- The default sorting branch (src/td.py lines 577 to 582): stable sort
by energy, then ids renumbered from 1. -/
def sort_by_energy (states : List ExcitedState) : List ExcitedState :=
  renumber 1 (List.insertionSort byEnergy states)

/-- The oscillator-strength sorting branch (src/td.py lines 574 to 576):
stable sort by descending strength, ids untouched. -/
def sort_by_strength (states : List ExcitedState) : List ExcitedState :=
  List.insertionSort byStrength states

/-- Hartree to eV conversion, literal of src/td.py line 288 (named
HARTREE2EV in src/td/parser/turbomole.py, whose constants module is not
under src). -/
def HARTREE2EV : ℚ := 27.211386

/-- Hartree to nm conversion, literal of src/td.py line 289 (named
HARTREE2NM in src/td/parser/turbomole.py). -/
def HARTREE2NM : ℚ := 45.56335

/-- Modelled from the spec: EV2NM, the nm times eV conversion constant of
the module td/constants.py, which is not under src; the spec names the
value 1239.84193 explicitly. -/
def EV2NM : ℚ := 1239.84193

/-- One parsed dominant-contribution line of the TURBOMOLE escf output
(the nine regex groups of src/td/parser/turbomole.py lines 96 to 98). -/
structure EscfDC where
  start_mo : String
  start_irrep : String
  start_spin : String
  coeff1 : ℚ
  final_mo : String
  final_irrep : String
  final_spin : String
  coeff2 : ℚ
  percent : ℚ
  deriving DecidableEq, Inhabited

/-- One state built by parse_escf (src/td/parser/turbomole.py lines 103
to 124, identical to src/td.py lines 286 to 304): energy converted from
Hartree, wavelength from the Hartree value directly, the coefficient
stored as the synthetic zero and the contribution as the parsed
percentage over one hundred. -/
def escf_state (sym : ℤ × String × String) (ee osc : ℚ) (dc : List EscfDC) : ExcitedState :=
  { id := sym.1
    spin := sym.2.1
    spat := sym.2.2
    dE := ee * HARTREE2EV
    l := HARTREE2NM / ee
    f := osc
    s2 := none
    mo_transitions := dc.map (fun d =>
      mk_mo_transition d.start_mo "->" d.final_mo 0 d.start_spin d.final_spin
        (some (d.percent / 100)) d.start_irrep d.final_irrep) }

/-- The zip of parse_escf over the four extracted collections
(src/td/parser/turbomole.py line 103): it stops at the shortest
collection, exactly like the Python builtin zip. -/
def zip4build (syms : List (ℤ × String × String)) (ees oscs : List ℚ)
    (dcs : List (List EscfDC)) : List ExcitedState :=
  (syms.zip (ees.zip (oscs.zip dcs))).map
    (fun x => escf_state x.1 x.2.1 x.2.2.1 x.2.2.2)

/-- parse_escf (src/td/parser/turbomole.py lines 74 to 126), modelled
from the point where the four per-state collections have been extracted
by the regexes: the collections are zipped without any length check. -/
def parse_escf (syms : List (ℤ × String × String)) (ees oscs : List ℚ)
    (dcs : List (List EscfDC)) : List ExcitedState :=
  zip4build syms ees oscs dcs

/-- One parsed molecular-orbital contribution line of the TURBOMOLE ricc2
output (src/td/parser/turbomole.py lines 26 to 34, the two dropped
columns omitted). -/
structure RiccMoc where
  start_mo : String
  start_irrep : String
  start_spin : String
  final_mo : String
  final_irrep : String
  final_spin : String
  coeff : ℚ
  percent : ℚ
  deriving DecidableEq, Inhabited

/-- One state built by parse_ricc2 (src/td/parser/turbomole.py lines 52
to 69): energy kept in eV, wavelength derived through EV2NM, the
contribution set from the parsed percentage. -/
def ricc2_state (id : ℤ) (spin sym : String) (ee osc : ℚ) (moc : List RiccMoc) :
    ExcitedState :=
  { id := id
    spin := spin
    spat := sym
    dE := ee
    l := EV2NM / ee
    f := osc
    s2 := none
    mo_transitions := moc.map (fun m =>
      mk_mo_transition m.start_mo "->" m.final_mo m.coeff m.start_spin m.final_spin
        (some (m.percent / 100)) m.start_irrep m.final_irrep) }

/-- The zip of parse_ricc2 over its six collections
(src/td/parser/turbomole.py lines 52 to 53). -/
def zip6build (ids : List ℤ) (spins syms : List String) (ees oscs : List ℚ)
    (mocs : List (List RiccMoc)) : List ExcitedState :=
  (ids.zip (spins.zip (syms.zip (ees.zip (oscs.zip mocs))))).map
    (fun x => ricc2_state x.1 x.2.1 x.2.2.1 x.2.2.2.1 x.2.2.2.2.1 x.2.2.2.2.2)

/-- parse_ricc2 (src/td/parser/turbomole.py lines 10 to 71), modelled
from the point where the collections have been extracted by the regexes:
the first assertion compares the identity list lengths with the energies,
the doubled symmetry listing of property runs is halved (the ids are not
halved in the source), the second assertion compares all five lengths,
and none models a failed assertion. -/
def parse_ricc2 (iss : List (ℤ × String × String)) (ees oscs : List ℚ)
    (mocs : List (List RiccMoc)) : Option (List ExcitedState) :=
  let ids := iss.map (fun x => x.1)
  let syms := iss.map (fun x => x.2.1)
  let spins := iss.map (fun x => x.2.2)
  if syms.length = spins.length ∧ spins.length = ees.length then
    let k := oscs.length
    let syms2 := if syms.length = 2 * k then syms.take k else syms
    let spins2 := if syms.length = 2 * k then spins.take k else spins
    let ees2 := if syms.length = 2 * k then ees.take k else ees
    if syms2.length = spins2.length ∧ spins2.length = ees2.length ∧
        ees2.length = oscs.length ∧ oscs.length = mocs.length then
      some (zip6build ids spins2 syms2 ees2 oscs mocs)
    else none
  else none

/-- A transition with every field not touched by the studied operations
erased to a default; used to state that an operation only rewrites
contributions. -/
def eraseContrib (t : MOTransition) : MOTransition := { t with contrib := none }

/-- Sum of the contributions of those back-transition indices of S whose
first orbital match inside ts is the index j. -/
def partialBackSum (ts : List MOTransition) (S : List ℕ) (j : ℕ) : ℚ :=
  ((S.filter (fun i =>
      firstIdx (matchesMO ((ts[i]?).getD default)) ts == some j)).map
    (fun i => (((ts[i]?).getD default).contrib).getD 0)).sum

/-- Expected result of correct_backexcitations on a well-formed state:
every transition loses the total contribution of the back-transitions
whose first orbital match it is. -/
def corrExpected (ts : List MOTransition) : List MOTransition :=
  (List.range ts.length).map (fun j =>
    let t := (ts[j]?).getD default
    let c := (t.contrib.getD 0) - partialBackSum ts (backIndices ts) j
    { t with contrib := some c })

/-- Hypothesis of the amended claim C1, decidably stated: for every
back-transition the first transition sharing its orbital fields is a
forward transition. -/
def backOk (ts : List MOTransition) : Bool :=
  (backIndices ts).all (fun i =>
    ((firstIdx (matchesMO ((ts[i]?).getD default)) ts).bind (fun j => ts[j]?)).any
      (fun t => t.to_or_from == "->"))

/-- The two transition lists agree position by position on every field
except the contribution; the correction loop only rewrites
contributions. -/
def coresMatch (ts ts0 : List MOTransition) : Prop :=
  ∀ k : ℕ, (ts[k]?).map eraseContrib = (ts0[k]?).map eraseContrib

/-- Position k of ts carries the original contribution of ts0 diminished
by the contributions of the already processed back-transition indices S
whose first orbital match is k. -/
def contribState (ts ts0 : List MOTransition) (S : List ℕ) : Prop :=
  ∀ k : ℕ, (ts[k]?).map (fun t => t.contrib) =
    (ts0[k]?).map (fun t => some (t.contrib.getD 0 - partialBackSum ts0 S k))

/-- gauss_uv_band (src/td.py lines 316 to 318). -/
noncomputable def gauss_uv_band (l f l_i : ℝ) : ℝ :=
  1.3062974e8 * f / (1e7 / 3099.6) *
    Real.exp (-(((1 / l - 1 / l_i) / (1 / 3099.6)) ^ 2))

/-- The wavelength grid of make_spectrum (src/td.py line 333): the numpy
arange from the start to the end in steps of one half. -/
noncomputable def arange_half (s e : ℝ) : List ℝ :=
  (List.range (Nat.ceil ((e - s) / 0.5))).map (fun k : ℕ => s + (k : ℝ) * 0.5)

/-- The unprocessed spectrum of make_spectrum (src/td.py lines 334 to
337): at every grid point the Gaussian bands of all states are summed.
The states enter through their oscillator-strength and wavelength pairs,
exactly the projection taken on line 332 of the source. -/
noncomputable def spectrum_raw (fli : List (ℝ × ℝ)) (s e : ℝ) : List ℝ :=
  (arange_half s e).map (fun l => (fli.map (fun p => gauss_uv_band l p.1 p.2)).sum)

/-- The numpy maximum of a list; the source calls it only on non-empty
data, the empty case is given an arbitrary value. -/
noncomputable def listMax : List ℝ → ℝ
  | [] => 0
  | x :: xs => xs.foldl max x

/-- make_spectrum (src/td.py lines 327 to 344) up to the printed output:
the optional extinction-to-strength division and the optional
normalization by the curve maximum. -/
noncomputable def make_spectrum (fli : List (ℝ × ℝ)) (start_l end_l : ℝ)
    (normalized e2f : Bool) : List ℝ :=
  let spec := spectrum_raw fli start_l end_l
  let spec2 := if e2f then spec.map (fun v => v / 40490.05867167) else spec
  if normalized then spec2.map (fun v => v / listMax spec2) else spec2

/-- ExcitedState.calc_rr_weight (src/td.py lines 150 to 154): both
wavelengths go to wavenumbers, the weight is the oscillator strength
times the modulus of the complex Lorentzian factor. -/
noncomputable def calc_rr_weight (l f rr_exc : ℝ) : ℝ :=
  f * Complex.abs ((1500 * Complex.I) /
    (((10 ^ 7 / l : ℝ) : ℂ) - ((10 ^ 7 / rr_exc : ℝ) : ℂ) - 1500 * Complex.I))

/-- Short constructor for concrete example transitions. -/
def mkT (sm tof fm : String) (ci : ℚ) (c : Option ℚ) : MOTransition :=
  { start_mo := sm
    to_or_from := tof
    final_mo := fm
    ci_coeff := ci
    contrib := c
    start_spin := "alpha"
    final_spin := "alpha"
    start_irrep := "A"
    final_irrep := "A" }

/-- Short constructor for concrete example states. -/
def mkES (spin : String) (ts : List MOTransition) : ExcitedState :=
  { id := 1
    spin := spin
    spat := "A"
    dE := 1
    l := 1
    f := 1
    s2 := none
    mo_transitions := ts }

/-- C1 counterexample state: the back-transition precedes its forward
partner in the transition list. -/
def c1badState : ExcitedState :=
  mkES "singlet" [mkT "1" "<-" "2" 0 (some (1 / 20)), mkT "1" "->" "2" 0 (some (3 / 10))]

/-- C1 witness state: the forward transition comes first, as in actual
Gaussian output. -/
def c1goodState : ExcitedState :=
  mkES "singlet" [mkT "1" "->" "2" 0 (some (3 / 10)), mkT "1" "<-" "2" 0 (some (1 / 20))]

/-- C2 failing input: a Gaussian-parsed singlet state; the regex of
src/td.py line 31 captures the capitalised token Singlet. -/
def c2state : ExcitedState := mkES "Singlet" [mkT "10" "->" "11" (1 / 2) none]

/-- C3 counterexample A: a non-singlet state with one forward transition
whose contribution lies between the squared threshold and its double. -/
def c3stateA : ExcitedState := mkES "triplet" [mkT "1" "->" "2" 1 (some (3 / 2))]

/-- C3 counterexample B: a transition with a known zero contribution but
a large raw coefficient. -/
def c3stateB : ExcitedState := mkES "triplet" [mkT "1" "->" "2" 1 (some 0)]

/-- C4 counterexample: a singlet state whose forward contribution turns
negative under back-excitation correction. -/
def c4state : ExcitedState :=
  mkES "singlet" [mkT "1" "->" "2" (1 / 10) none, mkT "1" "<-" "2" (3 / 10) none]

/-- C4 counterexample after the first two pipeline stages. -/
def c4after : ExcitedState :=
  ((c4state.calculate_contributions).correct_backexcitations).getD c4state

/-- C5 witness states. -/
def c5states : List ExcitedState :=
  [{ id := 1, spin := "singlet", spat := "A", dE := 2, l := 600, f := 1 / 2, s2 := none,
     mo_transitions := [] },
   { id := 2, spin := "singlet", spat := "A", dE := 1, l := 1200, f := 1 / 4, s2 := none,
     mo_transitions := [] }]

/-- First element of the energy-sorted C5 witness list. -/
def c5resA : ExcitedState :=
  { id := 1, spin := "singlet", spat := "A", dE := 1, l := 1200, f := 1 / 4, s2 := none,
    mo_transitions := [] }

/-- Second element of the energy-sorted C5 witness list. -/
def c5resB : ExcitedState :=
  { id := 2, spin := "singlet", spat := "A", dE := 2, l := 600, f := 1 / 2, s2 := none,
    mo_transitions := [] }

/-- C9 witness state: one contribution pre-set to zero, one unset. -/
def c9state : ExcitedState :=
  mkES "singlet" [mkT "1" "->" "2" (1 / 2) (some 0), mkT "1" "->" "3" (1 / 2) none]

/-- C6 mismatched collections: two symmetry entries. -/
def c6syms : List (ℤ × String × String) := [(1, ("singlet", "a")), (2, ("singlet", "a"))]

/-- C6 mismatched collections: one excitation energy. -/
def c6ees : List ℚ := [1]

/-- C6 mismatched collections: one oscillator strength. -/
def c6oscs : List ℚ := [1 / 2]

/-- C6 mismatched collections: one dominant-contribution block. -/
def c6dcs : List (List EscfDC) := [[]]


/-- An element of the suppressed transition list is an element of the
original list that fails the deletion test, and conversely. -/
lemma suppress_mem (es : ExcitedState) (thresh : ℚ) (t : MOTransition) :
    t ∈ (es.suppress_low_ci_coeffs thresh).mo_transitions ↔
      t ∈ es.mo_transitions ∧ suppressDelete thresh t = false := by
  simp [ExcitedState.suppress_low_ci_coeffs, List.mem_filter]

/-- Applying the per-transition contribution update twice equals applying
it once. -/
lemma calcContrib_calcContrib (s : Bool) (t : MOTransition) :
    calcContrib s (calcContrib s t) = calcContrib s t := by
  cases h : t.contrib <;> simp [calcContrib, h]

/-- A list is related by Forall₂ to its image under a map when the
relation holds pointwise. -/
lemma forall2_map {R : MOTransition → MOTransition → Prop} (f : MOTransition → MOTransition)
    (hf : ∀ t, R t (f t)) : ∀ l : List MOTransition, List.Forall₂ R l (l.map f)
  | [] => List.Forall₂.nil
  | t :: ts => List.Forall₂.cons (hf t) (forall2_map f hf ts)

/-- Length of the four-way zip of parse_escf: the shortest collection
wins, as for the Python builtin zip. -/
lemma zip4build_length (a : List (ℤ × String × String)) (b c : List ℚ)
    (d : List (List EscfDC)) :
    (zip4build a b c d).length = min a.length (min b.length (min c.length d.length)) := by
  simp [zip4build]

/-- Success condition of the modelled parse_ricc2: the assertions pass
exactly when the collection lengths line up, keeping the doubled
property-run listing in mind. -/
lemma parse_ricc2_isSome (iss : List (ℤ × String × String)) (ees oscs : List ℚ)
    (mocs : List (List RiccMoc)) :
    (parse_ricc2 iss ees oscs mocs).isSome = true ↔
      (iss.length = ees.length ∧
        ((iss.length = 2 * oscs.length ∧ mocs.length = oscs.length) ∨
         (iss.length ≠ 2 * oscs.length ∧ iss.length = oscs.length ∧
           oscs.length = mocs.length))) := by
  simp only [parse_ricc2]
  split_ifs with h1 h2 h3 h4
  all_goals simp only [List.length_map, List.length_take, true_and] at *
  all_goals simp only [Option.isSome_some, Option.isSome_none, true_iff, false_iff,
    Bool.false_eq_true]
  all_goals omega

/-- Every state built by the parse_ricc2 zip carries the wavelength
derived from its own energy through EV2NM. -/
lemma zip6build_mem {ids : List ℤ} {sps sys : List String} {erest oscs : List ℚ}
    {ms : List (List RiccMoc)} {es : ExcitedState}
    (h : es ∈ zip6build ids sps sys erest oscs ms) :
    ∃ ee ∈ erest, es.dE = ee ∧ es.l = EV2NM / ee := by
  obtain ⟨⟨i, sp, sy, e, o, m⟩, hx, rfl⟩ := List.mem_map.mp h
  have h1 := (List.of_mem_zip hx).2
  have h2 := (List.of_mem_zip h1).2
  have h3 := (List.of_mem_zip h2).2
  exact ⟨e, (List.of_mem_zip h3).1, rfl, rfl⟩

/-- Every state built by the parse_escf zip carries the energy and
wavelength derived from its own Hartree energy. -/
lemma zip4build_mem {syms : List (ℤ × String × String)} {ees oscs : List ℚ}
    {dcs : List (List EscfDC)} {es : ExcitedState}
    (h : es ∈ zip4build syms ees oscs dcs) :
    ∃ ee ∈ ees, es.dE = ee * HARTREE2EV ∧ es.l = HARTREE2NM / ee := by
  obtain ⟨⟨s, e, o, d⟩, hx, rfl⟩ := List.mem_map.mp h
  have h1 := (List.of_mem_zip hx).2
  exact ⟨e, (List.of_mem_zip h1).1, rfl, rfl⟩

unseal Rat.add Rat.sub Rat.mul Rat.inv Rat.ofScientific in
/-- Claim C1, counterexample: in a state where the BACKWARD transition
appears before its matching FORWARD transition (same orbital fields),
correct_backexcitations subtracts the BACKWARD contribution from the
BACKWARD transition itself, because the source takes the first
field-matching transition without inspecting its direction; the FORWARD
contribution stays 3/10 instead of the claimed 1/4. -/
theorem c1_counterexample :
    (∃ t ∈ c1badState.mo_transitions,
        t.to_or_from = "->" ∧ t.start_mo = "1" ∧ t.final_mo = "2") ∧
    c1badState.correct_backexcitations =
      some { c1badState with mo_transitions :=
        [mkT "1" "<-" "2" 0 (some 0), mkT "1" "->" "2" 0 (some (3 / 10))] } ∧
    (3 : ℚ) / 10 ≠ 3 / 10 - 1 / 20 := by decide

unseal Rat.add Rat.sub Rat.mul Rat.inv Rat.ofScientific in
/-- Claim C2: the code is wrong.  ExcitedState.is_singlet compares the
stored spin token with the lowercased literal but never lowercases the
token, so a Gaussian-parsed singlet (token Singlet, regex of src/td.py
line 31) gets the doubling factor 1: the computed contribution is 1/4
where the claim requires a doubled 1/2. -/
theorem c2_code_bug :
    c2state.calculate_contributions.mo_transitions.map (fun t => t.contrib) =
      [some ((1 : ℚ) / 4)] ∧
    ¬ ((1 : ℚ) / 4 = (1 / 2) ^ 2 * 2) := by decide

unseal Rat.add Rat.sub Rat.mul Rat.inv Rat.ofScientific in
/-- Claim C3, counterexample: with threshold 1 a non-singlet transition
of contribution 3/2 is removed although 3/2 exceeds the claimed cutoff
of one times the squared threshold (the code always multiplies by 2);
and with threshold 1/2 a transition of known zero contribution is kept
although the claim removes it, because a zero contribution is falsy in
the source. -/
theorem c3_counterexample :
    (c3stateA.suppress_low_ci_coeffs 1).mo_transitions = [] ∧
    ¬ ((3 : ℚ) / 2 ≤ 1 ^ 2 * 1) ∧
    (c3stateB.suppress_low_ci_coeffs (1 / 2)).mo_transitions = c3stateB.mo_transitions ∧
    ((0 : ℚ) ≤ (1 / 2) ^ 2 * 1) := by decide

/-- Claim C3 (amended): suppress_low_ci_coeffs keeps exactly the
transitions whose contribution is set, nonzero and above twice the
squared threshold (the factor 2 applies whatever the multiplicity), and
the transitions with unset or zero contribution whose raw coefficient
modulus exceeds the threshold. -/
theorem c3_amended (es : ExcitedState) (thresh : ℚ) (t : MOTransition) :
    t ∈ (es.suppress_low_ci_coeffs thresh).mo_transitions ↔
      t ∈ es.mo_transitions ∧
        ((∃ c, t.contrib = some c ∧ c ≠ 0 ∧ ¬ (c ≤ thresh ^ 2 * 2)) ∨
         ((t.contrib = none ∨ t.contrib = some 0) ∧ ¬ (|t.ci_coeff| ≤ thresh))) := by
  rw [suppress_mem]
  apply and_congr_right
  intro _
  cases h : t.contrib with
  | none => simp [suppressDelete, h]
  | some c =>
    by_cases hc : c = 0
    · subst hc; simp [suppressDelete, h]
    · simp [suppressDelete, h, hc]

/-- Claim C3, witness: evaluation of the amended membership condition on
the concrete C3 state. -/
theorem c3_witness :
    mkT "1" "->" "2" 1 (some (3 / 2)) ∈
        (c3stateA.suppress_low_ci_coeffs 1).mo_transitions ↔
      mkT "1" "->" "2" 1 (some (3 / 2)) ∈ c3stateA.mo_transitions ∧
        ((∃ c, (mkT "1" "->" "2" 1 (some (3 / 2))).contrib = some c ∧ c ≠ 0 ∧
            ¬ (c ≤ (1 : ℚ) ^ 2 * 2)) ∨
         (((mkT "1" "->" "2" 1 (some (3 / 2))).contrib = none ∨
            (mkT "1" "->" "2" 1 (some (3 / 2))).contrib = some 0) ∧
           ¬ (|(mkT "1" "->" "2" 1 (some (3 / 2))).ci_coeff| ≤ 1))) :=
  c3_amended c3stateA 1 (mkT "1" "->" "2" 1 (some (3 / 2)))

unseal Rat.add Rat.sub Rat.mul Rat.inv Rat.ofScientific in
/-- Claim C4, counterexample: after back-excitation correction the
forward contribution of the concrete state is negative; suppression then
removes that forward transition and the forward-contribution sum rises
from a negative value to zero, so it is not non-increasing. -/
theorem c4_counterexample :
    ((c4state.calculate_contributions).correct_backexcitations).isSome = true ∧
    ¬ (forwardContribSum (c4after.suppress_low_ci_coeffs (1 / 5)) ≤
        forwardContribSum c4after) := by decide

/-- Claim C4 (amended): when every forward transition of the state has a
nonnegative contribution (an unset one counting as zero), the
forward-contribution sum never increases under suppress_low_ci_coeffs. -/
theorem c4_amended (es : ExcitedState) (thresh : ℚ)
    (h : ∀ t ∈ es.mo_transitions, t.to_or_from = "->" → 0 ≤ t.contrib.getD 0) :
    forwardContribSum (es.suppress_low_ci_coeffs thresh) ≤ forwardContribSum es := by
  unfold forwardContribSum ExcitedState.suppress_low_ci_coeffs
  apply List.Sublist.sum_le_sum
  · exact ((List.filter_sublist _).filter _).map _
  · intro x hx
    simp only [List.mem_map, List.mem_filter] at hx
    obtain ⟨t, ⟨ht, hfwd⟩, rfl⟩ := hx
    exact h t ht (by simpa using hfwd)

unseal Rat.add Rat.sub Rat.mul Rat.inv Rat.ofScientific in
/-- Claim C4, witness: the amended monotonicity at a concrete state with
nonnegative forward contributions. -/
theorem c4_witness :
    forwardContribSum (c9state.suppress_low_ci_coeffs (1 / 5)) ≤
      forwardContribSum c9state :=
  c4_amended c9state (1 / 5) (by decide)

unseal Rat.add Rat.sub Rat.mul Rat.inv Rat.ofScientific in
/-- Claim C6, counterexample: the escf parser builds an excited state
from length-mismatched collections (two symmetry tokens against one
energy) instead of failing; the zip silently truncates. -/
theorem c6_counterexample :
    c6syms.length ≠ c6ees.length ∧
    (parse_escf c6syms c6ees c6oscs c6dcs).length = 1 := by decide

/-- Claim C6 (amended): the ricc2 parser indeed fails on misaligned
collections, its assertions succeeding exactly when the lengths line up
(modulo the halving of a doubled property-run listing); the escf parser
never fails and instead truncates to the shortest of its four extracted
collections. -/
theorem c6_amended :
    (∀ (syms : List (ℤ × String × String)) (ees oscs : List ℚ)
        (dcs : List (List EscfDC)),
      (parse_escf syms ees oscs dcs).length =
        min syms.length (min ees.length (min oscs.length dcs.length))) ∧
    (∀ (iss : List (ℤ × String × String)) (ees oscs : List ℚ)
        (mocs : List (List RiccMoc)),
      (parse_ricc2 iss ees oscs mocs).isSome = true ↔
        (iss.length = ees.length ∧
          ((iss.length = 2 * oscs.length ∧ mocs.length = oscs.length) ∨
           (iss.length ≠ 2 * oscs.length ∧ iss.length = oscs.length ∧
             oscs.length = mocs.length)))) :=
  ⟨fun syms ees oscs dcs => zip4build_length syms ees oscs dcs,
   fun iss ees oscs mocs => parse_ricc2_isSome iss ees oscs mocs⟩

/-- Claim C6, witness: the escf truncation length evaluated on the
concrete mismatched collections. -/
theorem c6_witness :
    (parse_escf c6syms c6ees c6oscs c6dcs).length =
      min c6syms.length (min c6ees.length (min c6oscs.length c6dcs.length)) :=
  c6_amended.1 c6syms c6ees c6oscs c6dcs

unseal Rat.add Rat.sub Rat.mul Rat.inv Rat.ofScientific in
/-- Claim C7, counterexample: an escf state of energy one Hartree has
wavelength times energy equal to 45.56335 times 27.211386, which is not
the claimed constant 1239.84193. -/
theorem c7_counterexample :
    (parse_escf [(1, ("singlet", "a"))] [1] [1 / 2] [[]]).map
        (fun es => es.l * es.dE) = [HARTREE2NM * HARTREE2EV] ∧
    HARTREE2NM * HARTREE2EV ≠ EV2NM := by decide

unseal Rat.add Rat.sub Rat.mul Rat.inv Rat.ofScientific in
/-- Claim C7 (amended): ricc2-parsed states satisfy wavelength equals
EV2NM over energy exactly (for nonzero energies); escf-parsed states
satisfy wavelength times energy equals HARTREE2NM times HARTREE2EV, a
constant slightly different from EV2NM; the Gaussian parser reads the
wavelength from the file, so no relation is enforced there. -/
theorem c7_amended (iss : List (ℤ × String × String)) (ees oscs : List ℚ)
    (mocs : List (List RiccMoc)) (syms2 : List (ℤ × String × String))
    (ees2 oscs2 : List ℚ) (dcs2 : List (List EscfDC))
    (h1 : ∀ ee ∈ ees, ee ≠ 0) (h2 : ∀ ee ∈ ees2, ee ≠ 0) :
    (∀ states, parse_ricc2 iss ees oscs mocs = some states →
      ∀ es ∈ states, es.l * es.dE = EV2NM) ∧
    (∀ es ∈ parse_escf syms2 ees2 oscs2 dcs2,
      es.l * es.dE = HARTREE2NM * HARTREE2EV) ∧
    HARTREE2NM * HARTREE2EV ≠ EV2NM := by
  refine ⟨?_, ?_, by decide⟩
  · intro states hst es hes
    simp only [parse_ricc2] at hst
    split_ifs at hst with hA hB hC hD
    all_goals
      first
      | exact Option.noConfusion hst
      | (injection hst with hst
         subst hst
         obtain ⟨ee, hee, hdE, hl⟩ := zip6build_mem hes
         exact hdE ▸ hl ▸ div_mul_cancel₀ EV2NM
           (h1 ee (by first | exact hee | exact List.mem_of_mem_take hee)))
  · intro es hes
    obtain ⟨ee, hee, hdE, hl⟩ := zip4build_mem hes
    have hee0 : ee ≠ 0 := h2 ee hee
    rw [hdE, hl]
    field_simp
    ring

unseal Rat.add Rat.sub Rat.mul Rat.inv Rat.ofScientific in
/-- Claim C7, witness: the amended relations evaluated on concrete
one-state parses. -/
theorem c7_witness :
    (∀ states, parse_ricc2 [(1, ("a", "1"))] [2] [1 / 2] [[]] = some states →
      ∀ es ∈ states, es.l * es.dE = EV2NM) ∧
    (∀ es ∈ parse_escf [(1, ("singlet", "a"))] [1] [1 / 2] [[]],
      es.l * es.dE = HARTREE2NM * HARTREE2EV) ∧
    HARTREE2NM * HARTREE2EV ≠ EV2NM :=
  c7_amended [(1, ("a", "1"))] [2] [1 / 2] [[]] [(1, ("singlet", "a"))] [1] [1 / 2] [[]]
    (by decide) (by decide)

/-- Claim C9: calculate_contributions is idempotent; a second call
reproduces the first, and a transition whose contribution is already set,
zero included, keeps it. -/
theorem c9 (es : ExcitedState) :
    es.calculate_contributions.calculate_contributions =
      es.calculate_contributions ∧
    List.Forall₂ (fun t u => t.contrib.isSome = true → u.contrib = t.contrib)
      es.mo_transitions es.calculate_contributions.mo_transitions := by
  obtain ⟨id, spin, spat, dE, l, f, s2, mo⟩ := es
  constructor
  · simp only [ExcitedState.calculate_contributions, ExcitedState.is_singlet,
      ExcitedState.mk.injEq, List.map_map, true_and]
    apply List.map_congr_left
    intro t _
    exact calcContrib_calcContrib _ t
  · simp only [ExcitedState.calculate_contributions]
    apply forall2_map
    intro t
    cases h : t.contrib with
    | none => intro hs; simp at hs
    | some c => intro _; simp [calcContrib, h]

/-- Claim C9, witness: idempotence evaluated on the concrete state with
one pre-set zero contribution and one unset contribution. -/
theorem c9_witness :
    c9state.calculate_contributions.calculate_contributions =
      c9state.calculate_contributions ∧
    List.Forall₂ (fun t u => t.contrib.isSome = true → u.contrib = t.contrib)
      c9state.mo_transitions c9state.calculate_contributions.mo_transitions :=
  c9 c9state

/-- Element access into the renumbered list: positions are kept and only
the id field is overwritten with its offset position. -/
lemma renumber_getElem? : ∀ (k : ℤ) (l : List ExcitedState) (i : ℕ),
    (renumber k l)[i]? = (l[i]?).map (fun es => { es with id := k + i })
  | _, [], i => by simp [renumber]
  | k, es :: rest, 0 => by simp [renumber]
  | k, es :: rest, i + 1 => by
    have h := renumber_getElem? (k + 1) rest i
    simp only [renumber, List.getElem?_cons_succ, h]
    have hfun : (fun es : ExcitedState => { es with id := k + 1 + (i : ℤ) }) =
        (fun es : ExcitedState => { es with id := k + ((i : ℕ) + 1 : ℕ) }) := by
      funext es
      congr 1
      push_cast
      ring
    rw [hfun]

/-- Claim C5: after the default energy sort the states are ascending in
energy and the ids are reassigned consecutively from one; the
oscillator-strength sort merely permutes the parsed states, every record
(its id included) kept intact.  The claim is settled on the sorting code
of src/td.py; in src/td/run.py the default energy sort is absent (the
block is commented out), so the property is about the only default energy
sort in the sources. -/
theorem c5 (states : List ExcitedState) (i : ℕ) (a b : ExcitedState)
    (ha : (sort_by_energy states)[i]? = some a)
    (hb : (sort_by_energy states)[i + 1]? = some b) :
    (a.dE ≤ b.dE ∧ a.id = (i : ℤ) + 1) ∧ (sort_by_strength states).Perm states := by
  refine ⟨?_, List.perm_insertionSort byStrength states⟩
  unfold sort_by_energy at ha hb
  rw [renumber_getElem?] at ha hb
  cases h1 : (List.insertionSort byEnergy states)[i]? with
  | none => rw [h1] at ha; simp at ha
  | some a0 =>
    cases h2 : (List.insertionSort byEnergy states)[i + 1]? with
    | none => rw [h2] at hb; simp at hb
    | some b0 =>
      rw [h1] at ha
      rw [h2] at hb
      simp only [Option.map_some', Option.some.injEq] at ha hb
      subst ha
      subst hb
      constructor
      · obtain ⟨hlt2, hget2⟩ := List.getElem?_eq_some.mp h2
        obtain ⟨hlt1, hget1⟩ := List.getElem?_eq_some.mp h1
        have hs := List.sorted_insertionSort byEnergy states
        have hrel := List.Sorted.rel_get_of_lt hs
          (a := ⟨i, hlt1⟩) (b := ⟨i + 1, hlt2⟩) (by simp [Fin.lt_def])
        simp only [List.get_eq_getElem] at hrel
        rw [hget1, hget2] at hrel
        exact hrel
      · show (1 : ℤ) + (i : ℤ) = (i : ℤ) + 1
        ring

unseal Rat.add Rat.sub Rat.mul Rat.inv Rat.ofScientific in
/-- Claim C5, witness: the sorted two-state list evaluated concretely. -/
theorem c5_witness :
    (c5resA.dE ≤ c5resB.dE ∧ c5resA.id = ((0 : ℕ) : ℤ) + 1) ∧
      (sort_by_strength c5states).Perm c5states :=
  c5 c5states 0 c5resA c5resB (by decide) (by decide)

/-- Erasing the contribution keeps the start orbital. -/
lemma eraseContrib_start_mo {a b : MOTransition} (h : eraseContrib a = eraseContrib b) :
    a.start_mo = b.start_mo := by
  have := congrArg MOTransition.start_mo h
  exact this

/-- Erasing the contribution keeps the final orbital. -/
lemma eraseContrib_final_mo {a b : MOTransition} (h : eraseContrib a = eraseContrib b) :
    a.final_mo = b.final_mo := by
  have := congrArg MOTransition.final_mo h
  exact this

/-- Erasing the contribution keeps the direction. -/
lemma eraseContrib_to_or_from {a b : MOTransition} (h : eraseContrib a = eraseContrib b) :
    a.to_or_from = b.to_or_from := by
  have := congrArg MOTransition.to_or_from h
  exact this

/-- The orbital matching test only reads fields kept by eraseContrib
(right argument). -/
lemma matchesMO_congr_right (bt : MOTransition) {a b : MOTransition}
    (h : eraseContrib a = eraseContrib b) : matchesMO bt a = matchesMO bt b := by
  unfold matchesMO
  rw [eraseContrib_start_mo h, eraseContrib_final_mo h]

/-- The orbital matching test only reads fields kept by eraseContrib
(left argument). -/
lemma matchesMO_congr_left (t : MOTransition) {bt bt2 : MOTransition}
    (h : eraseContrib bt = eraseContrib bt2) : matchesMO bt t = matchesMO bt2 t := by
  unfold matchesMO
  rw [eraseContrib_start_mo h, eraseContrib_final_mo h]

/-- firstIdx is determined by the pointwise values of its test. -/
lemma firstIdx_ext {p q : MOTransition → Bool} (h : ∀ t, p t = q t) :
    ∀ ts, firstIdx p ts = firstIdx q ts
  | [] => rfl
  | t :: ts => by simp only [firstIdx, h t, firstIdx_ext h ts]

/-- firstIdx is unchanged between lists whose cores agree position by
position, when its test only reads the core. -/
lemma firstIdx_congr {p : MOTransition → Bool}
    (hp : ∀ a b, eraseContrib a = eraseContrib b → p a = p b) :
    ∀ (ts1 ts2 : List MOTransition),
      (∀ k : ℕ, (ts1[k]?).map eraseContrib = (ts2[k]?).map eraseContrib) →
      firstIdx p ts1 = firstIdx p ts2
  | [], [], _ => rfl
  | [], t :: ts, hc => by have h0 := hc 0; simp at h0
  | t :: ts, [], hc => by have h0 := hc 0; simp at h0
  | a :: ts1, b :: ts2, hc => by
    have h0 : eraseContrib a = eraseContrib b := by have := hc 0; simpa using this
    have hrec := firstIdx_congr hp ts1 ts2 (fun k => by have := hc (k + 1); simpa using this)
    simp only [firstIdx, hp a b h0, hrec]

/-- A successful firstIdx points at an element satisfying the test. -/
lemma firstIdx_spec {p : MOTransition → Bool} :
    ∀ {ts : List MOTransition} {j : ℕ}, firstIdx p ts = some j →
      ∃ tj, ts[j]? = some tj ∧ p tj = true
  | [], _, h => by simp [firstIdx] at h
  | t :: ts, j, h => by
    by_cases hp : p t
    · simp only [firstIdx, hp, if_true, Option.some.injEq] at h
      subst h
      exact ⟨t, by simp, hp⟩
    · simp only [firstIdx, hp, if_false] at h
      cases hrec : firstIdx p ts with
      | none => rw [hrec] at h; simp at h
      | some j2 =>
        rw [hrec] at h
        simp at h
        subst h
        obtain ⟨tj, htj, hptj⟩ := firstIdx_spec hrec
        exact ⟨tj, by simpa using htj, hptj⟩

/-- Core agreement forces equal lengths. -/
lemma coresMatch_length {ts ts0 : List MOTransition} (h : coresMatch ts ts0) :
    ts.length = ts0.length := by
  rcases Nat.lt_trichotomy ts.length ts0.length with hlt | heq | hgt
  · exfalso
    have hk := h ts.length
    rw [List.getElem?_eq_none (le_refl _), List.getElem?_eq_getElem hlt] at hk
    simp at hk
  · exact heq
  · exfalso
    have hk := h ts0.length
    rw [List.getElem?_eq_getElem hgt, List.getElem?_eq_none (le_refl _)] at hk
    simp at hk

/-- Two transitions with equal cores and equal contributions are equal. -/
lemma mo_eq_of_parts {a b : MOTransition} (h1 : eraseContrib a = eraseContrib b)
    (h2 : a.contrib = b.contrib) : a = b := by
  cases a
  cases b
  simp only [eraseContrib, MOTransition.mk.injEq] at h1 h2 ⊢
  obtain ⟨e1, e2, e3, e4, e5, e6, _, e8, e9⟩ := h1
  exact ⟨e1, e2, e3, e4, e5, e6, h2, e8, e9⟩

/-- Membership in backIndices decodes to a back-transition at that
position. -/
lemma backIndices_mem {ts0 : List MOTransition} {i : ℕ} (h : i ∈ backIndices ts0) :
    ∃ bt0, ts0[i]? = some bt0 ∧ bt0.to_or_from = "<-" := by
  unfold backIndices at h
  rw [List.mem_filter] at h
  obtain ⟨_, hp⟩ := h
  cases hb : ts0[i]? with
  | none => rw [hb] at hp; simp [Option.any] at hp
  | some bt0 =>
    rw [hb] at hp
    refine ⟨bt0, rfl, ?_⟩
    simpa [Option.any] using hp

/-- The partial back-sums over the empty processed set vanish. -/
lemma partialBackSum_nil (ts0 : List MOTransition) (k : ℕ) :
    partialBackSum ts0 [] k = 0 := by
  simp [partialBackSum]

/-- The partial back-sums split over an appended processed set. -/
lemma partialBackSum_append (ts0 : List MOTransition) (S S2 : List ℕ) (k : ℕ) :
    partialBackSum ts0 (S ++ S2) k =
      partialBackSum ts0 S k + partialBackSum ts0 S2 k := by
  simp [partialBackSum, List.filter_append]

/-- No back-transition is the first orbital match of a back-transition
when every first match is forward, so back positions collect no
subtractions. -/
lemma partialBackSum_backward_zero {ts0 : List MOTransition}
    (hok : ∀ i2 ∈ backIndices ts0, ∃ j tj,
      firstIdx (matchesMO ((ts0[i2]?).getD default)) ts0 = some j ∧
      ts0[j]? = some tj ∧ tj.to_or_from = "->")
    {S : List ℕ} (hS : ∀ i2 ∈ S, i2 ∈ backIndices ts0)
    {i : ℕ} (hi : i ∈ backIndices ts0) :
    partialBackSum ts0 S i = 0 := by
  unfold partialBackSum
  have hfil : S.filter (fun i2 =>
      firstIdx (matchesMO ((ts0[i2]?).getD default)) ts0 == some i) = [] := by
    rw [List.filter_eq_nil_iff]
    intro i2 hi2
    obtain ⟨j, tj, hfm, htj, hdir⟩ := hok i2 (hS i2 hi2)
    rw [hfm]
    simp only [beq_iff_eq, Option.some.injEq]
    intro hji
    subst hji
    obtain ⟨bt0, hbt0, hbdir⟩ := backIndices_mem hi
    rw [hbt0] at htj
    injection htj with htj
    subst htj
    rw [hdir] at hbdir
    simp at hbdir
  rw [hfil]
  simp

/-- The single-element partial back-sum at the matched position is the
back-transition contribution. -/
lemma partialBackSum_single_eq {ts0 : List MOTransition} {i j : ℕ} {bt0 : MOTransition}
    (hbt0 : ts0[i]? = some bt0)
    (hfm : firstIdx (matchesMO bt0) ts0 = some j) :
    partialBackSum ts0 [i] j = bt0.contrib.getD 0 := by
  have hpred : (firstIdx (matchesMO ((ts0[i]?).getD default)) ts0 == some j) = true := by
    rw [hbt0]
    simp only [Option.getD_some, hfm, beq_self_eq_true]
  unfold partialBackSum
  rw [List.filter_singleton, hpred]
  simp [hbt0]

/-- The single-element partial back-sum vanishes away from the matched
position. -/
lemma partialBackSum_single_ne {ts0 : List MOTransition} {i j k : ℕ} {bt0 : MOTransition}
    (hbt0 : ts0[i]? = some bt0)
    (hfm : firstIdx (matchesMO bt0) ts0 = some j)
    (hjk : j ≠ k) :
    partialBackSum ts0 [i] k = 0 := by
  have hpred : (firstIdx (matchesMO ((ts0[i]?).getD default)) ts0 == some k) = false := by
    rw [hbt0]
    simp only [Option.getD_some, hfm]
    simp [hjk]
  unfold partialBackSum
  rw [List.filter_singleton, hpred]
  simp

/-- Invariant of the correct_backexcitations loop: processing a list of
back indices keeps the cores and subtracts, at every first-match
position, the contributions of the processed back-transitions. -/
lemma corrLoop_invariant (ts0 : List MOTransition)
    (hok : ∀ i2 ∈ backIndices ts0, ∃ j tj,
      firstIdx (matchesMO ((ts0[i2]?).getD default)) ts0 = some j ∧
      ts0[j]? = some tj ∧ tj.to_or_from = "->") :
    ∀ (L : List ℕ) (ts : List MOTransition) (S : List ℕ),
      (∀ i ∈ L, i ∈ backIndices ts0) →
      (∀ i ∈ S, i ∈ backIndices ts0) →
      coresMatch ts ts0 →
      contribState ts ts0 S →
      ∃ tf, corrLoop ts L = some tf ∧ coresMatch tf ts0 ∧
        contribState tf ts0 (S ++ L) := by
  intro L
  induction L with
  | nil =>
    intro ts S _ _ hcores hcontrib
    exact ⟨ts, rfl, hcores, by simpa using hcontrib⟩
  | cons i L2 ih =>
    intro ts S hL hS hcores hcontrib
    have hiB : i ∈ backIndices ts0 := hL i (List.mem_cons_self i L2)
    obtain ⟨bt0, hbt0, hbt0dir⟩ := backIndices_mem hiB
    have hci := hcores i
    rw [hbt0] at hci
    cases hbt : ts[i]? with
    | none => rw [hbt] at hci; simp at hci
    | some bt =>
    rw [hbt] at hci
    replace hci : eraseContrib bt = eraseContrib bt0 := by simpa using hci
    have hP0 : partialBackSum ts0 S i = 0 := partialBackSum_backward_zero hok hS hiB
    have hcon := hcontrib i
    rw [hbt, hbt0] at hcon
    replace hcon : bt.contrib = some (bt0.contrib.getD 0 - partialBackSum ts0 S i) := by
      simpa using hcon
    rw [hP0, sub_zero] at hcon
    obtain ⟨j, tj0, hfm, htj0, htj0dir⟩ := hok i hiB
    rw [hbt0] at hfm
    simp only [Option.getD_some] at hfm
    have hfm2 : firstIdx (matchesMO bt) ts = some j := by
      have e1 : firstIdx (matchesMO bt) ts = firstIdx (matchesMO bt0) ts :=
        firstIdx_ext (fun t => matchesMO_congr_left t hci) ts
      have e2 : firstIdx (matchesMO bt0) ts = firstIdx (matchesMO bt0) ts0 :=
        firstIdx_congr (fun a b h => matchesMO_congr_right bt0 h) ts ts0 hcores
      rw [e1, e2, hfm]
    have hcj := hcores j
    rw [htj0] at hcj
    cases htj : ts[j]? with
    | none => rw [htj] at hcj; simp at hcj
    | some tj =>
    rw [htj] at hcj
    replace hcj : eraseContrib tj = eraseContrib tj0 := by simpa using hcj
    have hconj := hcontrib j
    rw [htj, htj0] at hconj
    replace hconj : tj.contrib = some (tj0.contrib.getD 0 - partialBackSum ts0 S j) := by
      simpa using hconj
    have hstep : corrStep ts i = some (ts.set j
        { tj with contrib := some ((tj0.contrib.getD 0 - partialBackSum ts0 S j) -
          bt0.contrib.getD 0) }) := by
      simp only [corrStep, hbt, hfm2, htj, hconj, hcon]
    have hlenj : j < ts.length := by
      have hle := coresMatch_length hcores
      have hj0 : j < ts0.length := by
        cases hx : ts0[j]? with
        | none => rw [hx] at htj0; exact Option.noConfusion htj0
        | some _ =>
          by_contra hge
          rw [List.getElem?_eq_none (Nat.le_of_not_lt hge)] at hx
          exact Option.noConfusion hx
      omega
    have hcores2 : coresMatch (ts.set j
        { tj with contrib := some ((tj0.contrib.getD 0 - partialBackSum ts0 S j) -
          bt0.contrib.getD 0) }) ts0 := by
      intro k
      rw [List.getElem?_set]
      by_cases hkj : j = k
      · rw [if_pos hkj, if_pos hlenj]
        subst hkj
        rw [htj0]
        simp only [Option.map_some']
        exact congrArg some hcj
      · rw [if_neg hkj]
        exact hcores k
    have hcontrib2 : contribState (ts.set j
        { tj with contrib := some ((tj0.contrib.getD 0 - partialBackSum ts0 S j) -
          bt0.contrib.getD 0) }) ts0 (S ++ [i]) := by
      intro k
      have hpb := partialBackSum_append ts0 S [i] k
      rw [List.getElem?_set]
      by_cases hkj : j = k
      · rw [if_pos hkj, if_pos hlenj]
        subst hkj
        rw [htj0]
        simp only [Option.map_some']
        rw [hpb, partialBackSum_single_eq hbt0 hfm]
        rw [sub_sub]
      · rw [if_neg hkj]
        rw [show partialBackSum ts0 (S ++ [i]) k = partialBackSum ts0 S k from by
          rw [hpb, partialBackSum_single_ne hbt0 hfm hkj, add_zero]]
        exact hcontrib k
    have hS2 : ∀ i2 ∈ S ++ [i], i2 ∈ backIndices ts0 := by
      intro i2 hi2
      rcases List.mem_append.mp hi2 with h | h
      · exact hS i2 h
      · rw [List.mem_singleton] at h
        subst h
        exact hiB
    obtain ⟨tf, hloop, hcoresf, hcontribf⟩ :=
      ih _ (S ++ [i]) (fun i2 h => hL i2 (List.mem_cons_of_mem _ h)) hS2 hcores2 hcontrib2
    refine ⟨tf, ?_, hcoresf, ?_⟩
    · simpa [corrLoop, hstep] using hloop
    · rw [List.append_cons]
      exact hcontribf

/-- Claim C1 (amended): when every contribution is set and, for each
BACKWARD transition, the first transition in the state's list sharing its
start and final orbital fields is a FORWARD transition,
correct_backexcitations succeeds and yields the state in which every
transition's contribution is diminished by the total contribution of the
BACKWARD transitions whose first orbital match it is (so each matched
FORWARD transition loses the matching BACKWARD contributions and the
BACKWARD transitions keep theirs), and BACKWARD transitions are excluded
from the printed transition listing. -/
theorem c1_amended (es : ExcitedState)
    (hset : es.mo_transitions.all (fun t => t.contrib.isSome) = true)
    (hok : backOk es.mo_transitions = true) :
    es.correct_backexcitations =
      some { es with mo_transitions := corrExpected es.mo_transitions } ∧
    ∀ t ∈ ExcitedState.printed_transitions
        { es with mo_transitions := corrExpected es.mo_transitions },
      t.to_or_from ≠ "<-" := by
  have hok2 : ∀ i ∈ backIndices es.mo_transitions, ∃ j tj,
      firstIdx (matchesMO ((es.mo_transitions[i]?).getD default)) es.mo_transitions =
        some j ∧
      es.mo_transitions[j]? = some tj ∧ tj.to_or_from = "->" := by
    intro i hi
    have h := (List.all_eq_true.mp hok) i hi
    cases hfm : firstIdx (matchesMO ((es.mo_transitions[i]?).getD default))
        es.mo_transitions with
    | none => rw [hfm] at h; simp [Option.any] at h
    | some j =>
      rw [hfm] at h
      simp only [Option.some_bind] at h
      cases htj : es.mo_transitions[j]? with
      | none => rw [htj] at h; simp [Option.any] at h
      | some tj =>
        rw [htj] at h
        refine ⟨j, tj, rfl, htj, ?_⟩
        simpa [Option.any] using h
  have hsetP : ∀ t ∈ es.mo_transitions, t.contrib.isSome = true := by
    intro t ht
    exact (List.all_eq_true.mp hset) t ht
  have hinit : contribState es.mo_transitions es.mo_transitions [] := by
    intro k
    cases hk : es.mo_transitions[k]? with
    | none => simp
    | some t =>
      simp only [Option.map_some', Option.some.injEq]
      have hts : t ∈ es.mo_transitions := List.getElem?_mem hk
      have hsome := hsetP t hts
      cases hc : t.contrib with
      | none => rw [hc] at hsome; simp at hsome
      | some c =>
        rw [partialBackSum_nil]
        simp
  obtain ⟨tf, hloop, hcoresf, hcontribf⟩ :=
    corrLoop_invariant es.mo_transitions hok2 (backIndices es.mo_transitions)
      es.mo_transitions [] (fun i h => h) (by simp) (fun k => rfl) hinit
  rw [List.nil_append] at hcontribf
  have hfinal : tf = corrExpected es.mo_transitions := by
    apply List.ext_getElem?
    intro k
    unfold corrExpected
    rw [List.getElem?_map]
    have hlen := coresMatch_length hcoresf
    by_cases hk : k < es.mo_transitions.length
    · rw [List.getElem?_range hk]
      simp only [Option.map_some']
      have hkf : k < tf.length := by omega
      cases htf : tf[k]? with
      | none =>
        rw [List.getElem?_eq_getElem hkf] at htf
        exact Option.noConfusion htf
      | some tfk =>
        cases h0 : es.mo_transitions[k]? with
        | none =>
          rw [List.getElem?_eq_getElem hk] at h0
          exact Option.noConfusion h0
        | some t0k =>
          have hcoresk := hcoresf k
          have hcontk := hcontribf k
          rw [htf, h0] at hcoresk hcontk
          replace hcoresk : eraseContrib tfk = eraseContrib t0k := by simpa using hcoresk
          replace hcontk : tfk.contrib = some (t0k.contrib.getD 0 -
              partialBackSum es.mo_transitions (backIndices es.mo_transitions) k) := by
            simpa using hcontk
          refine congrArg some (mo_eq_of_parts ?_ ?_)
          · exact hcoresk
          · exact hcontk.trans rfl
    · have hrange : (List.range es.mo_transitions.length)[k]? = none :=
        List.getElem?_eq_none (by simp only [List.length_range]; omega)
      rw [hrange]
      simp only [Option.map_none']
      exact List.getElem?_eq_none (by omega)
  constructor
  · unfold ExcitedState.correct_backexcitations
    rw [hloop, hfinal]
    rfl
  · intro t ht
    unfold ExcitedState.printed_transitions at ht
    rw [List.mem_filter] at ht
    simpa using ht.2

unseal Rat.add Rat.sub Rat.mul Rat.inv Rat.ofScientific in
/-- Claim C1, witness: the amended correction evaluated on the concrete
two-transition state with the forward transition first. -/
theorem c1_witness :
    c1goodState.correct_backexcitations =
      some { c1goodState with
        mo_transitions := corrExpected c1goodState.mo_transitions } ∧
    ∀ t ∈ ExcitedState.printed_transitions
        { c1goodState with
          mo_transitions := corrExpected c1goodState.mo_transitions },
      t.to_or_from ≠ "<-" :=
  c1_amended c1goodState (by decide) (by decide)

/-- Claim C10: for nonzero wavelengths the Lorentzian denominator of
calc_rr_weight has imaginary part minus 1500, hence never vanishes, the
division is by a complex number of positive modulus, and the weight is
the finite real number f times 1500 over that modulus; no division by
zero occurs even at exact resonance. -/
theorem c10 (l f rr_exc : ℝ) (hl : l ≠ 0) (hr : rr_exc ≠ 0) :
    (((10 ^ 7 / l : ℝ) : ℂ) - ((10 ^ 7 / rr_exc : ℝ) : ℂ) - 1500 * Complex.I ≠ 0) ∧
    0 < Complex.abs
      (((10 ^ 7 / l : ℝ) : ℂ) - ((10 ^ 7 / rr_exc : ℝ) : ℂ) - 1500 * Complex.I) ∧
    calc_rr_weight l f rr_exc =
      f * (1500 / Complex.abs
        (((10 ^ 7 / l : ℝ) : ℂ) - ((10 ^ 7 / rr_exc : ℝ) : ℂ) - 1500 * Complex.I)) := by
  have hne : ((10 ^ 7 / l : ℝ) : ℂ) - ((10 ^ 7 / rr_exc : ℝ) : ℂ) - 1500 * Complex.I ≠ 0 := by
    intro h
    have him := congrArg Complex.im h
    simp only [Complex.sub_im, Complex.ofReal_im, Complex.mul_im, Complex.I_im,
      Complex.I_re, Complex.zero_im, Complex.re_ofNat, Complex.im_ofNat] at him
    norm_num at him
  refine ⟨hne, Complex.abs.pos hne, ?_⟩
  unfold calc_rr_weight
  rw [map_div₀]
  congr 1
  rw [map_mul, Complex.abs_I, Complex.abs_ofNat]
  norm_num

/-- Claim C10, witness: the weight formula evaluated at exact resonance
(both wavelengths equal to one), where the denominator is the pure
imaginary minus 1500 i. -/
theorem c10_witness :
    (((10 ^ 7 / 1 : ℝ) : ℂ) - ((10 ^ 7 / 1 : ℝ) : ℂ) - 1500 * Complex.I ≠ 0) ∧
    0 < Complex.abs
      (((10 ^ 7 / 1 : ℝ) : ℂ) - ((10 ^ 7 / 1 : ℝ) : ℂ) - 1500 * Complex.I) ∧
    calc_rr_weight 1 1 1 =
      1 * (1500 / Complex.abs
        (((10 ^ 7 / 1 : ℝ) : ℂ) - ((10 ^ 7 / 1 : ℝ) : ℂ) - 1500 * Complex.I)) :=
  c10 1 1 1 (by norm_num) (by norm_num)

/-- The left fold with max dominates its seed and every element, and is
the seed or an element. -/
lemma foldl_max_spec : ∀ (xs : List ℝ) (a : ℝ),
    (xs.foldl max a = a ∨ xs.foldl max a ∈ xs) ∧
    a ≤ xs.foldl max a ∧ ∀ x ∈ xs, x ≤ xs.foldl max a
  | [], a => ⟨Or.inl rfl, le_refl a, by simp⟩
  | x :: xs, a => by
    obtain ⟨h1, h2, h3⟩ := foldl_max_spec xs (max a x)
    rw [List.foldl_cons]
    refine ⟨?_, ?_, ?_⟩
    · rcases h1 with h | h
      · rcases max_choice a x with hm | hm
        · rw [h, hm]
          exact Or.inl rfl
        · rw [h, hm]
          exact Or.inr (List.mem_cons_self x xs)
      · exact Or.inr (List.mem_cons_of_mem x h)
    · exact le_trans (le_max_left a x) h2
    · intro y hy
      rcases List.mem_cons.mp hy with rfl | hy
      · exact le_trans (le_max_right a y) h2
      · exact h3 y hy

/-- The numpy maximum of a non-empty list is one of its entries. -/
lemma listMax_mem : ∀ {xs : List ℝ}, xs ≠ [] → listMax xs ∈ xs
  | [], h => absurd rfl h
  | x :: xs, _ => by
    simp only [listMax]
    rcases (foldl_max_spec xs x).1 with h | h
    · rw [h]
      exact List.mem_cons_self x xs
    · exact List.mem_cons_of_mem x h

/-- Every entry is bounded by the numpy maximum. -/
lemma le_listMax : ∀ {xs : List ℝ} {x : ℝ}, x ∈ xs → x ≤ listMax xs
  | [], x, h => absurd h (List.not_mem_nil x)
  | y :: xs, x, h => by
    simp only [listMax]
    rcases List.mem_cons.mp h with rfl | h
    · exact (foldl_max_spec xs x).2.1
    · exact (foldl_max_spec xs y).2.2 x h

/-- Claim C8: the spectrum grid holds exactly the points of the form
start plus a natural multiple of one half that lie below the end, the
unnormalized spectrum is the grid-indexed list of the state-summed
Gaussian bands, and, for nonnegative oscillator strengths, whenever the
unnormalized maximum is nonzero the normalized curve has maximum exactly
one. -/
theorem c8 (fli : List (ℝ × ℝ)) (s e : ℝ)
    (hf : ∀ p ∈ fli, 0 ≤ p.1) :
    (∀ x : ℝ, x ∈ arange_half s e ↔
      ∃ k : ℕ, x = s + k * 0.5 ∧ s + (k : ℝ) * 0.5 < e) ∧
    make_spectrum fli s e false false =
      (arange_half s e).map
        (fun l => (fli.map (fun p => gauss_uv_band l p.1 p.2)).sum) ∧
    (listMax (make_spectrum fli s e false false) ≠ 0 →
      listMax (make_spectrum fli s e true false) = 1) := by
  have hraw : make_spectrum fli s e false false = spectrum_raw fli s e := rfl
  refine ⟨?_, hraw, ?_⟩
  · intro x
    constructor
    · intro hx
      unfold arange_half at hx
      rw [List.mem_map] at hx
      obtain ⟨k, hk, rfl⟩ := hx
      rw [List.mem_range] at hk
      refine ⟨k, rfl, ?_⟩
      have h2 := Nat.lt_ceil.mp hk
      have h05 : (0 : ℝ) < 0.5 := by norm_num
      rw [lt_div_iff₀ h05] at h2
      linarith
    · rintro ⟨k, rfl, hlt⟩
      unfold arange_half
      rw [List.mem_map]
      refine ⟨k, ?_, rfl⟩
      rw [List.mem_range, Nat.lt_ceil]
      have h05 : (0 : ℝ) < 0.5 := by norm_num
      rw [lt_div_iff₀ h05]
      linarith
  · intro hmax
    rw [hraw] at hmax
    have hnormal : make_spectrum fli s e true false =
        (spectrum_raw fli s e).map (fun v => v / listMax (spectrum_raw fli s e)) := rfl
    rw [hnormal]
    set M := listMax (spectrum_raw fli s e) with hM
    have hnonneg : ∀ v ∈ spectrum_raw fli s e, 0 ≤ v := by
      intro v hv
      unfold spectrum_raw at hv
      rw [List.mem_map] at hv
      obtain ⟨l, _, rfl⟩ := hv
      apply List.sum_nonneg
      intro b hb
      rw [List.mem_map] at hb
      obtain ⟨p, hp, rfl⟩ := hb
      unfold gauss_uv_band
      apply mul_nonneg
      · apply div_nonneg
        · have := hf p hp
          positivity
        · norm_num
      · exact le_of_lt (Real.exp_pos _)
    have hne : spectrum_raw fli s e ≠ [] := by
      intro hnil
      rw [hM, hnil] at hmax
      exact hmax rfl
    have hMmem : M ∈ spectrum_raw fli s e := listMax_mem hne
    have hMpos : 0 < M := lt_of_le_of_ne (hnonneg M hMmem) (Ne.symm hmax)
    apply le_antisymm
    · have hmap : (spectrum_raw fli s e).map (fun v => v / M) ≠ [] := by
        intro hnil
        exact hne (List.map_eq_nil_iff.mp hnil)
      have hbound : ∀ y ∈ (spectrum_raw fli s e).map (fun v => v / M), y ≤ 1 := by
        intro y hy
        rw [List.mem_map] at hy
        obtain ⟨v, hv, rfl⟩ := hy
        rw [div_le_one hMpos]
        exact le_listMax hv
      obtain hmem := listMax_mem hmap
      exact hbound _ hmem
    · have h1mem : (1 : ℝ) ∈ (spectrum_raw fli s e).map (fun v => v / M) := by
        rw [List.mem_map]
        exact ⟨M, hMmem, div_self (ne_of_gt hMpos)⟩
      exact le_listMax h1mem

/-- Claim C8, witness: the normalized spectrum of a single unit-strength
state at 100 nm over the window from 100 to 101 nm peaks at exactly
one. -/
theorem c8_witness :
    listMax (make_spectrum [((1 : ℝ), (100 : ℝ))] 100 101 true false) = 1 := by
  have hf : ∀ p ∈ [((1 : ℝ), (100 : ℝ))], 0 ≤ p.1 := by
    intro p hp
    rw [List.mem_singleton] at hp
    subst hp
    norm_num
  have h := c8 [((1 : ℝ), (100 : ℝ))] 100 101 hf
  apply h.2.2
  have hraw : make_spectrum [((1 : ℝ), (100 : ℝ))] 100 101 false false =
      spectrum_raw [((1 : ℝ), (100 : ℝ))] 100 101 := rfl
  rw [hraw]
  have hceil : Nat.ceil (((101 : ℝ) - 100) / 0.5) = 2 := by
    have he : ((101 : ℝ) - 100) / 0.5 = 2 := by norm_num
    rw [he]
    norm_num
  have hgrid : arange_half 100 101 =
      [100 + ((0 : ℕ) : ℝ) * 0.5, 100 + ((1 : ℕ) : ℝ) * 0.5] := by
    unfold arange_half
    rw [hceil]
    rfl
  have hspec : spectrum_raw [((1 : ℝ), (100 : ℝ))] 100 101 =
      [gauss_uv_band (100 + ((0 : ℕ) : ℝ) * 0.5) 1 100,
       gauss_uv_band (100 + ((1 : ℕ) : ℝ) * 0.5) 1 100] := by
    unfold spectrum_raw
    rw [hgrid]
    simp
  have hpos : (0 : ℝ) < gauss_uv_band (100 + ((0 : ℕ) : ℝ) * 0.5) 1 100 := by
    unfold gauss_uv_band
    positivity
  have hmem : gauss_uv_band (100 + ((0 : ℕ) : ℝ) * 0.5) 1 100 ∈
      spectrum_raw [((1 : ℝ), (100 : ℝ))] 100 101 := by
    rw [hspec]
    exact List.mem_cons_self _ _
  exact ne_of_gt (lt_of_lt_of_le hpos (le_listMax hmem))
